import Mathlib

/-!
Object-key schema of the ledger datastore.

A shallow embedding of `support/datastore/schema.go`:
`DataStoreSchema`, `GetSequenceNumberStartBoundary`,
`GetSequenceNumberEndBoundary` and `GetObjectKeyFromSequenceNumber`.

Go's `uint32` / `uint64` values are natural numbers; every arithmetic
operation of the source is followed by the reduction modulo `2^32` or `2^64`
that the machine type performs.  A run-time panic (integer division by zero)
is the result `none`.
-/

namespace Datastore

/-! ## Machine arithmetic -/

/-- The constant `math.MaxUint32`. -/
def MaxUint32 : Nat := 4294967295

/-- Number of values of a `uint32`. -/
def two32 : Nat := 4294967296

/-- Number of values of a `uint64`. -/
def two64 : Nat := 18446744073709551616

/-- Multiplication of two `uint32` values (wraps modulo `2^32`). -/
def mul32 (a b : Nat) : Nat := (a * b) % two32

/-- Subtraction of two `uint32` values (wraps modulo `2^32`). -/
def sub32 (a b : Nat) : Nat := (a + two32 - b) % two32

/-- Division of two `uint32` values; dividing by zero panics. -/
def div32 (a b : Nat) : Option Nat := if b = 0 then none else some (a / b)

/-- Addition of two `uint64` values (wraps modulo `2^64`). -/
def add64 (a b : Nat) : Nat := (a + b) % two64

/-- Subtraction of two `uint64` values (wraps modulo `2^64`). -/
def sub64 (a b : Nat) : Nat := (a + two64 - b) % two64

/-- The conversion `uint32(x)` of a `uint64` value. -/
def toUint32 (x : Nat) : Nat := x % two32

/-! ## The formatting verbs of `fmt.Sprintf` used by the schema -/

/-- The digit table of package `fmt` for upper-case output. -/
def udigits : List Char :=
  ['0', '1', '2', '3', '4', '5', '6', '7', '8', '9', 'A', 'B', 'C', 'D', 'E', 'F']

/-- Digit character of a value below the base. -/
def digitChar (d : Nat) : Char := udigits.getD d '0'

/-- The digit loop of `fmt`: the digits of `u` are written right to left in
front of `buf`.  A `uint64` has at most 64 digits in any base, which bounds
the number of iterations. -/
def fmtDigits (base : Nat) : Nat → Nat → List Char → List Char
  | 0, u, buf => digitChar (u % base) :: buf
  | fuel + 1, u, buf =>
    if base ≤ u then fmtDigits base fuel (u / base) (digitChar (u % base) :: buf)
    else digitChar u :: buf

/-- Zero padding on the left up to a minimum width. -/
def zeroPad (width : Nat) (s : List Char) : List Char :=
  List.replicate (width - s.length) '0' ++ s

/-- The verb `%d` applied to an unsigned integer. -/
def fmtDec (u : Nat) : String := String.mk (fmtDigits 10 64 u [])

/-- The verb `%08X` applied to an unsigned integer. -/
def fmtHex08 (u : Nat) : String := String.mk (zeroPad 8 (fmtDigits 16 64 u []))

/-! ## The schema -/

/-- The configuration `DataStoreSchema`; both counters are `uint32`. -/
structure DataStoreSchema where
  LedgersPerFile : Nat
  FilesPerPartition : Nat
  FileExtension : String
  deriving DecidableEq

/-- Both counters of the configuration fit their `uint32` fields. -/
def DataStoreSchema.WellTyped (ec : DataStoreSchema) : Prop :=
  ec.LedgersPerFile < two32 ∧ ec.FilesPerPartition < two32

/-- Source `GetSequenceNumberStartBoundary`. -/
def GetSequenceNumberStartBoundary (ec : DataStoreSchema) (ledgerSeq : Nat) : Nat :=
  if ec.LedgersPerFile = 0 then 0
  else mul32 (ledgerSeq / ec.LedgersPerFile) ec.LedgersPerFile

/-- Source `GetSequenceNumberEndBoundary`. -/
def GetSequenceNumberEndBoundary (ec : DataStoreSchema) (ledgerSeq : Nat) : Nat :=
  let end64 := sub64 (add64 (GetSequenceNumberStartBoundary ec ledgerSeq) ec.LedgersPerFile) 1
  let end64 := if end64 > MaxUint32 then MaxUint32 else end64
  toUint32 end64

/-- The partition block of `GetObjectKeyFromSequenceNumber` (the body of
`if ec.FilesPerPartition > 1`, up to `partitionEnd`): the pair
`(partitionStart, partitionEnd)`, or `none` when the division panics. -/
def partitionBounds (ec : DataStoreSchema) (ledgerSeq : Nat) : Option (Nat × Nat) :=
  let partitionSize := mul32 ec.LedgersPerFile ec.FilesPerPartition
  match div32 ledgerSeq partitionSize with
  | none => none
  | some q =>
    let partitionStart := mul32 q partitionSize
    let end64 := sub64 (add64 partitionStart partitionSize) 1
    let end64 := if end64 > MaxUint32 then MaxUint32 else end64
    let partitionEnd := toUint32 end64
    some (partitionStart, partitionEnd)

/-- Source `GetObjectKeyFromSequenceNumber`.  The name of the default
compressor (`compressxdr.DefaultCompressor.Name()`) is the parameter
`defaultName`. -/
def GetObjectKeyFromSequenceNumber (ec : DataStoreSchema) (defaultName : String)
    (ledgerSeq : Nat) : Option String :=
  let objectKey : Option String :=
    if ec.FilesPerPartition > 1 then
      match partitionBounds ec ledgerSeq with
      | none => none
      | some (partitionStart, partitionEnd) =>
        some (fmtHex08 (sub32 MaxUint32 partitionStart) ++ "--" ++ fmtDec partitionStart
          ++ "-" ++ fmtDec partitionEnd ++ "/")
    else some ""
  match objectKey with
  | none => none
  | some objectKey =>
    let fileStart := GetSequenceNumberStartBoundary ec ledgerSeq
    let fileEnd := GetSequenceNumberEndBoundary ec ledgerSeq
    let objectKey := objectKey ++ (fmtHex08 (sub32 MaxUint32 fileStart) ++ "--" ++ fmtDec fileStart)
    let objectKey := if fileStart ≠ fileEnd then objectKey ++ ("-" ++ fmtDec fileEnd) else objectKey
    let fileExtension := if ec.FileExtension = "" then defaultName else ec.FileExtension
    let objectKey := objectKey ++ (".xdr." ++ fileExtension)
    some objectKey

/-! ## Fixed-width positional digits -/

/-- The `k` low-order digits of `n` in base `b`, most significant first. -/
def digitsFixed (b : Nat) : Nat → Nat → List Char
  | 0, _ => []
  | k + 1, n => digitChar (n / b ^ k % b) :: digitsFixed b k n

/-- The rendering the key layout calls `hex8`: exactly eight upper-case
hexadecimal digits, zero padded. -/
def hex8 (n : Nat) : String := String.mk (digitsFixed 16 8 n)

/-! ## The key layout and the partition ranges as the specification words them -/

/-- The composite width `ledgersPerFile * filesPerPartition` as an exact product. -/
def partitionSizeExact (ec : DataStoreSchema) : Nat :=
  ec.LedgersPerFile * ec.FilesPerPartition

/-- The largest multiple of the exact partition size not exceeding `seq`. -/
def partitionStartExact (ec : DataStoreSchema) (seq : Nat) : Nat :=
  seq / partitionSizeExact ec * partitionSizeExact ec

/-- The exact partition end, `partitionStart + P - 1` clamped to the ceiling. -/
def partitionEndExact (ec : DataStoreSchema) (seq : Nat) : Nat :=
  min (partitionStartExact ec seq + partitionSizeExact ec - 1) MaxUint32

/-- The decimal rendering `dec` of the key layout. -/
def dec (n : Nat) : String := Nat.repr n

/-- The key layout: an optional directory component for the partition range,
the file component, and the suffix `.xdr.<ext>`. -/
def keyLayout (partition : Option (Nat × Nat)) (fileStart fileEnd : Nat) (ext : String) :
    String :=
  (match partition with
    | some (partitionStart, partitionEnd) =>
      hex8 (MaxUint32 - partitionStart) ++ "--" ++ dec partitionStart ++ "-"
        ++ dec partitionEnd ++ "/"
    | none => "")
  ++ (hex8 (MaxUint32 - fileStart) ++ "--" ++ dec fileStart
      ++ (if fileStart ≠ fileEnd then "-" ++ dec fileEnd else ""))
  ++ (".xdr." ++ ext)

/-- Both keys are produced and the first is strictly greater than the second
in lexicographic order. -/
def KeyGt (x y : Option String) : Prop :=
  ∃ kx ky, x = some kx ∧ y = some ky ∧ ky < kx

/-- Both keys are produced and the first is greater than or equal to the second in
lexicographic order. -/
def KeyGe (x y : Option String) : Prop :=
  ∃ kx ky, x = some kx ∧ y = some ky ∧ ky ≤ kx

/-! ## The four documented shapes of a key -/

/-- The directory component `H--Nstart-Nend/` of a partitioned key. -/
def dirComponent (partitionStart partitionEnd : Nat) : String :=
  hex8 (MaxUint32 - partitionStart) ++ "--" ++ dec partitionStart ++ "-"
    ++ dec partitionEnd ++ "/"

/-- The file component `H--N` of a file with a single ledger. -/
def fileSingle (fileStart : Nat) : String :=
  hex8 (MaxUint32 - fileStart) ++ "--" ++ dec fileStart

/-- The file component `H--N1-N2` of a file with several ledgers. -/
def fileRange (fileStart fileEnd : Nat) : String :=
  hex8 (MaxUint32 - fileStart) ++ "--" ++ dec fileStart ++ "-" ++ dec fileEnd

/-- The shape of a key selected by the two flags "partitioned" and "multiple ledgers per
file": `H--N.xdr.EXT`, `H--N1-N2.xdr.EXT`, `H--Nstart-Nend/H--N.xdr.EXT` or
`H--Nstart-Nend/H--N1-N2.xdr.EXT`. -/
def keyShape (partitioned multiple : Bool) (partitionStart partitionEnd fileStart fileEnd : Nat)
    (ext : String) : String :=
  (if partitioned then dirComponent partitionStart partitionEnd else "")
    ++ (if multiple then fileRange fileStart fileEnd else fileSingle fileStart)
    ++ (".xdr." ++ ext)

/-! ## Reading a hexadecimal prefix back -/

/-- The characters `0-9` and `A-F`. -/
def isUpperHexDigit (c : Char) : Bool :=
  ('0' ≤ c && c ≤ '9') || ('A' ≤ c && c ≤ 'F')

/-- The value of an upper-case hexadecimal digit. -/
def hexDigitValue (c : Char) : Option Nat :=
  if '0' ≤ c ∧ c ≤ '9' then some (c.toNat - 48)
  else if 'A' ≤ c ∧ c ≤ 'F' then some (c.toNat - 55)
  else none

/-- The base-16 value of a list of upper-case hexadecimal digits, read from the left,
starting from the value `acc` of the digits already read. -/
def hexValueFrom : Nat → List Char → Option Nat
  | acc, [] => some acc
  | acc, c :: cs =>
    match hexDigitValue c with
    | some v => hexValueFrom (acc * 16 + v) cs
    | none => none

/-- The base-16 value of a string of upper-case hexadecimal digits. -/
def hexValue (s : String) : Option Nat := hexValueFrom 0 s.toList

end Datastore

/-! ## The offers query of the offers end-point (`actions/offer.go`) -/

namespace Actions

/-- The pagination parameters `QueryParams`. -/
structure QueryParams where
  Cursor : String
  Order : String
  Limit : Nat
  deriving DecidableEq

/-- The query struct `OffersQuery`, with the field names of the source. -/
structure OffersQuery extends QueryParams where
  Seller : String
  SellingAssetType : String
  SellingAsssetIssuer : String
  SellingAsssetCode : String
  BuyingAssetType : String
  BuyingAsssetIssuer : String
  BuyingAsssetCode : String
  deriving DecidableEq

/-- The builtin `len` on a Go string: its number of bytes. -/
def len (s : String) : Nat := s.utf8ByteSize

/-- Source `OffersQuery.HasSelling`. -/
def OffersQuery.HasSelling (q : OffersQuery) : Bool :=
  decide (len q.SellingAssetType > 0)

/-- Source `OffersQuery.HasBuying`. -/
def OffersQuery.HasBuying (q : OffersQuery) : Bool :=
  decide (len q.SellingAssetType > 0)

/-- The query has a buying asset parameter: its `buying_asset_type` is not empty. -/
def OffersQuery.hasBuyingParam (q : OffersQuery) : Prop :=
  q.BuyingAssetType ≠ ""

end Actions

namespace Datastore

theorem digitsFixed_length (b k n : Nat) : (digitsFixed b k n).length = k := by
  induction k with
  | zero => rfl
  | succ k ih => simp [digitsFixed, ih]

theorem digitsFixed_snoc (b k n : Nat) :
    digitsFixed b (k + 1) n = digitsFixed b k (n / b) ++ [digitChar (n % b)] := by
  induction k with
  | zero => simp [digitsFixed]
  | succ k ih =>
    rw [digitsFixed, ih]
    conv_rhs => rw [digitsFixed]
    simp [Nat.div_div_eq_div_mul, pow_succ, Nat.mul_comm]

theorem digitsFixed_zero (b k : Nat) :
    digitsFixed b k 0 = List.replicate k '0' := by
  induction k with
  | zero => rfl
  | succ k ih =>
    rw [digitsFixed, ih, List.replicate_succ]
    simp [Nat.zero_mod, digitChar, udigits]

theorem digitsFixed_small (b k n : Nat) (hn : n < b) :
    digitsFixed b (k + 1) n = List.replicate k '0' ++ [digitChar n] := by
  rw [digitsFixed_snoc, Nat.div_eq_of_lt hn, Nat.mod_eq_of_lt hn,
    digitsFixed_zero b k]

theorem fmtDigits_pad (b : Nat) :
    ∀ (k fuel n : Nat) (buf : List Char), n < b ^ (k + 1) → k ≤ fuel →
      ∃ z, z ≤ k ∧
        List.replicate z '0' ++ fmtDigits b fuel n buf = digitsFixed b (k + 1) n ++ buf := by
  intro k
  induction k with
  | zero =>
    intro fuel n buf hn _
    have hn' : n < b := by simpa using hn
    refine ⟨0, le_refl _, ?_⟩
    cases fuel with
    | zero => simp [fmtDigits, digitsFixed, Nat.mod_eq_of_lt hn']
    | succ f => simp [fmtDigits, digitsFixed, Nat.mod_eq_of_lt hn', Nat.not_le.mpr hn']
  | succ k ih =>
    intro fuel n buf hn hf
    obtain ⟨f, rfl⟩ : ∃ f, fuel = f + 1 := ⟨fuel - 1, by omega⟩
    by_cases hlt : b ≤ n
    · have hdiv : n / b < b ^ (k + 1) := by
        apply Nat.div_lt_of_lt_mul
        rw [pow_succ] at hn
        rw [Nat.mul_comm]
        exact hn
      obtain ⟨z, hz, hEq⟩ := ih f (n / b) (digitChar (n % b) :: buf) hdiv (by omega)
      refine ⟨z, by omega, ?_⟩
      rw [fmtDigits, if_pos hlt, hEq, digitsFixed_snoc b (k + 1) n]
      simp
    · refine ⟨k + 1, le_refl _, ?_⟩
      rw [fmtDigits, if_neg hlt, digitsFixed_small b (k + 1) n (by omega)]
      simp

theorem zeroPad_fmtDigits (b : Nat) (k n : Nat) (hn : n < b ^ (k + 1))
    (hk : k ≤ 64) : zeroPad (k + 1) (fmtDigits b 64 n []) = digitsFixed b (k + 1) n := by
  obtain ⟨z, hz, hEq⟩ := fmtDigits_pad b k 64 n [] hn hk
  have hlen := congrArg List.length hEq
  simp only [List.length_append, List.length_replicate, digitsFixed_length,
    List.length_nil] at hlen
  have hz' : k + 1 - (fmtDigits b 64 n []).length = z := by omega
  rw [zeroPad, hz', hEq]
  simp

/-- On `uint32` values the verb `%08X` renders exactly the eight digits of `hex8`. -/
theorem fmtHex08_eq_hex8 (n : Nat) (hn : n < two32) : fmtHex08 n = hex8 n := by
  unfold fmtHex08 hex8
  rw [zeroPad_fmtDigits 16 7 n (by simpa [two32] using hn) (by decide)]

/-! ## Byte-wise lexicographic order

Strings are compared character by character (`String.lt_iff_toList_lt`); on
the UTF-8 encoding this is the byte-wise comparison of Go. -/

/-- A common prefix does not change the order of two lists. -/
theorem list_lt_append_left (p : List Char) {x y : List Char} (h : x < y) :
    p ++ x < p ++ y := by
  induction p with
  | nil => exact h
  | cons c p ih => exact List.Lex.cons ih

/-- Two lists whose prefixes of equal length are ordered are ordered the same way. -/
theorem list_lt_of_prefix_lt {p q : List Char} (h : p < q) :
    ∀ (x y : List Char), p.length = q.length → p ++ x < q ++ y := by
  induction h with
  | nil => intro x y hl; simp at hl
  | cons _ ih =>
    intro x y hl
    exact List.Lex.cons (ih x y (by simpa using hl))
  | rel hab => intro x y _; exact List.Lex.rel hab

theorem digitChar_strictMono : ∀ d e : Fin 16, d < e → digitChar d.val < digitChar e.val := by
  decide

/-- Fixed-width hexadecimal digits preserve the order of the numbers. -/
theorem digitsFixed_lt (k : Nat) :
    ∀ m n : Nat, m % 16 ^ k < n % 16 ^ k → digitsFixed 16 k m < digitsFixed 16 k n := by
  induction k with
  | zero => intro m n h; simp [Nat.mod_one] at h
  | succ k ih =>
    intro m n h
    rw [Nat.mod_pow_succ, Nat.mod_pow_succ] at h
    have hdm : m / 16 ^ k % 16 < 16 := Nat.mod_lt _ (by decide)
    have hdn : n / 16 ^ k % 16 < 16 := Nat.mod_lt _ (by decide)
    have hpos : 0 < 16 ^ k := Nat.pow_pos (by decide)
    have hrm : m % 16 ^ k < 16 ^ k := Nat.mod_lt _ hpos
    have hrn : n % 16 ^ k < 16 ^ k := Nat.mod_lt _ hpos
    rw [digitsFixed, digitsFixed]
    rcases Nat.lt_trichotomy (m / 16 ^ k % 16) (n / 16 ^ k % 16) with hlt | heq | hgt
    · exact List.Lex.rel (digitChar_strictMono ⟨_, hdm⟩ ⟨_, hdn⟩ hlt)
    · rw [heq] at h ⊢
      exact List.Lex.cons (ih m n (by omega))
    · exfalso
      have hmul : 16 ^ k * (n / 16 ^ k % 16 + 1) ≤ 16 ^ k * (m / 16 ^ k % 16) :=
        Nat.mul_le_mul_left _ hgt
      rw [Nat.mul_add, Nat.mul_one] at hmul
      omega

theorem hex8_length (n : Nat) : (hex8 n).toList.length = 8 := digitsFixed_length 16 8 n

/-- The prefix `hex8` is strictly monotone on `uint32` values. -/
theorem hex8_lt {m n : Nat} (hmn : m < n) (hn : n < two32) : hex8 m < hex8 n := by
  have h16 : (16 : Nat) ^ 8 = two32 := by decide
  rw [String.lt_iff_toList_lt]
  exact digitsFixed_lt 8 m n (by
    rw [h16, Nat.mod_eq_of_lt hn, Nat.mod_eq_of_lt (Nat.lt_trans hmn hn)]; exact hmn)

/-- A key that starts with a larger `hex8` prefix is the larger key. -/
theorem hex8_append_lt {m n : Nat} (hmn : m < n) (hn : n < two32) (x y : String) :
    hex8 m ++ x < hex8 n ++ y := by
  have h := list_lt_of_prefix_lt (String.lt_iff_toList_lt.mp (hex8_lt hmn hn)) x.toList y.toList
    (by rw [hex8_length, hex8_length])
  rw [String.lt_iff_toList_lt]
  simpa using h

theorem string_append_lt_append_left (p : String) {x y : String} (h : x < y) :
    p ++ x < p ++ y := by
  have h2 := list_lt_append_left p.toList (String.lt_iff_toList_lt.mp h)
  rw [String.lt_iff_toList_lt]
  simpa using h2

/-! ## File boundaries -/

theorem div_mul_lt_two32 {seq : Nat} (n : Nat) (hseq : seq < two32) : seq / n * n < two32 :=
  Nat.lt_of_le_of_lt (Nat.div_mul_le_self seq n) hseq

/-- On a `uint32` sequence number the start boundary is computed without wraparound. -/
theorem start_eq (ec : DataStoreSchema) (seq : Nat) (hL : 1 ≤ ec.LedgersPerFile)
    (hseq : seq < two32) :
    GetSequenceNumberStartBoundary ec seq = seq / ec.LedgersPerFile * ec.LedgersPerFile := by
  unfold GetSequenceNumberStartBoundary mul32
  rw [if_neg (by omega), Nat.mod_eq_of_lt (div_mul_lt_two32 _ hseq)]

theorem start_le (ec : DataStoreSchema) (seq : Nat) (hseq : seq < two32) :
    GetSequenceNumberStartBoundary ec seq ≤ seq := by
  unfold GetSequenceNumberStartBoundary mul32
  split
  · exact Nat.zero_le _
  · rw [Nat.mod_eq_of_lt (div_mul_lt_two32 _ hseq)]
    exact Nat.div_mul_le_self _ _

theorem start_lt_two32 (ec : DataStoreSchema) (seq : Nat) :
    GetSequenceNumberStartBoundary ec seq < two32 := by
  unfold GetSequenceNumberStartBoundary mul32
  split
  · decide
  · exact Nat.mod_lt _ (by decide)

/-- The end boundary as a function of the start boundary. -/
theorem end_eq (ec : DataStoreSchema) (seq : Nat) (hL : 1 ≤ ec.LedgersPerFile)
    (hLt : ec.LedgersPerFile < two32) :
    GetSequenceNumberEndBoundary ec seq =
      min (GetSequenceNumberStartBoundary ec seq + ec.LedgersPerFile - 1) MaxUint32 := by
  have hs := start_lt_two32 ec seq
  unfold GetSequenceNumberEndBoundary add64 sub64 toUint32
  simp only [two32, two64, MaxUint32] at *
  generalize GetSequenceNumberStartBoundary ec seq = s at *
  split <;> omega

theorem seq_lt_start_add (ec : DataStoreSchema) (seq : Nat) (hL : 1 ≤ ec.LedgersPerFile)
    (hseq : seq < two32) :
    seq < GetSequenceNumberStartBoundary ec seq + ec.LedgersPerFile := by
  rw [start_eq ec seq hL hseq]
  have h := Nat.div_add_mod seq ec.LedgersPerFile
  have h2 := Nat.mod_lt seq (show 0 < ec.LedgersPerFile by omega)
  rw [Nat.mul_comm] at h
  omega

/-- The start boundary only depends on the quotient, hence is constant on a file range. -/
theorem start_eq_of_mem (ec : DataStoreSchema) (seq seq' : Nat) (hL : 1 ≤ ec.LedgersPerFile)
    (hseq : seq < two32) (hseq' : seq' < two32)
    (h1 : GetSequenceNumberStartBoundary ec seq ≤ seq')
    (h2 : seq' < GetSequenceNumberStartBoundary ec seq + ec.LedgersPerFile) :
    GetSequenceNumberStartBoundary ec seq' = GetSequenceNumberStartBoundary ec seq := by
  rw [start_eq ec seq hL hseq] at h1 h2 ⊢
  rw [start_eq ec seq' hL hseq']
  have hpos : 0 < ec.LedgersPerFile := by omega
  have hq : seq' / ec.LedgersPerFile = seq / ec.LedgersPerFile := by
    apply Nat.le_antisymm
    · apply Nat.le_of_lt_succ
      rw [Nat.div_lt_iff_lt_mul hpos, Nat.succ_mul]
      exact h2
    · rw [Nat.le_div_iff_mul_le hpos]
      exact h1
  rw [hq]

theorem end_eq_of_start_eq (ec : DataStoreSchema) (seq seq' : Nat)
    (h : GetSequenceNumberStartBoundary ec seq' = GetSequenceNumberStartBoundary ec seq) :
    GetSequenceNumberEndBoundary ec seq' = GetSequenceNumberEndBoundary ec seq := by
  unfold GetSequenceNumberEndBoundary
  rw [h]

theorem start_mono (ec : DataStoreSchema) {a b : Nat} (hab : a ≤ b) (hb : b < two32) :
    GetSequenceNumberStartBoundary ec a ≤ GetSequenceNumberStartBoundary ec b := by
  unfold GetSequenceNumberStartBoundary mul32
  split
  · exact Nat.le_refl _
  · rw [Nat.mod_eq_of_lt (div_mul_lt_two32 _ hb),
      Nat.mod_eq_of_lt (div_mul_lt_two32 _ (Nat.lt_of_le_of_lt hab hb))]
    exact Nat.mul_le_mul_right _ (Nat.div_le_div_right hab)

/-! ## The formatting verbs on machine integers -/

theorem digitChar_eq_natDigitChar : ∀ d : Fin 10, digitChar d.val = Nat.digitChar d.val := by
  decide

/-- The digit loop in base ten is the decimal conversion of the standard library. -/
theorem fmtDigits_eq_toDigitsCore :
    ∀ (f1 f2 n : Nat) (buf : List Char), n < 10 ^ (f1 + 1) → n < f2 →
      fmtDigits 10 f1 n buf = Nat.toDigitsCore 10 f2 n buf := by
  intro f1
  induction f1 with
  | zero =>
    intro f2 n buf hn hf
    have hn' : n < 10 := by simpa using hn
    obtain ⟨g, rfl⟩ : ∃ g, f2 = g + 1 := ⟨f2 - 1, by omega⟩
    have hd := digitChar_eq_natDigitChar ⟨n, hn'⟩
    simp only at hd
    simp [fmtDigits, Nat.toDigitsCore, Nat.div_eq_of_lt hn', Nat.mod_eq_of_lt hn', hd]
  | succ f ih =>
    intro f2 n buf hn hf
    obtain ⟨g, rfl⟩ : ∃ g, f2 = g + 1 := ⟨f2 - 1, by omega⟩
    have hd := digitChar_eq_natDigitChar ⟨n % 10, Nat.mod_lt _ (by decide)⟩
    simp only at hd
    by_cases hlt : 10 ≤ n
    · have hdiv : n / 10 < 10 ^ (f + 1) := by
        apply Nat.div_lt_of_lt_mul
        rw [pow_succ, Nat.mul_comm] at hn
        exact hn
      have hne : n / 10 ≠ 0 := by omega
      rw [fmtDigits, if_pos hlt, Nat.toDigitsCore]
      simp only [hne, if_false]
      rw [← hd]
      exact ih g (n / 10) _ hdiv (by omega)
    · have hn' : n < 10 := by omega
      rw [Nat.mod_eq_of_lt hn'] at hd
      simp [fmtDigits, Nat.toDigitsCore, Nat.div_eq_of_lt hn', Nat.mod_eq_of_lt hn', hd, hlt]

/-- On `uint64` values the verb `%d` is the usual decimal representation. -/
theorem fmtDec_eq_dec (n : Nat) (hn : n < two64) : fmtDec n = dec n := by
  unfold fmtDec dec Nat.repr Nat.toDigits
  rw [fmtDigits_eq_toDigitsCore 64 (n + 1) n [] _ (Nat.lt_succ_self n)]
  · rfl
  · exact Nat.lt_trans hn (by decide)

theorem sub32_max (x : Nat) (hx : x < two32) : sub32 MaxUint32 x = MaxUint32 - x := by
  unfold sub32
  simp only [two32, MaxUint32] at *
  omega

theorem fmtHex08_sub32 (x : Nat) (hx : x < two32) :
    fmtHex08 (sub32 MaxUint32 x) = hex8 (MaxUint32 - x) := by
  rw [sub32_max x hx]
  apply fmtHex08_eq_hex8
  simp only [two32, MaxUint32]
  omega

/-! ## Partition boundaries -/

theorem partitionBounds_none (ec : DataStoreSchema) (seq : Nat)
    (h : mul32 ec.LedgersPerFile ec.FilesPerPartition = 0) : partitionBounds ec seq = none := by
  simp [partitionBounds, div32, h]

/-- With a non-zero 32-bit partition size the partition block yields the multiple of that
size below `seq` and the clamped end. -/
theorem partitionBounds_eq (ec : DataStoreSchema) (seq : Nat)
    (h : mul32 ec.LedgersPerFile ec.FilesPerPartition ≠ 0) (hseq : seq < two32) :
    partitionBounds ec seq =
      some (seq / mul32 ec.LedgersPerFile ec.FilesPerPartition
              * mul32 ec.LedgersPerFile ec.FilesPerPartition,
            min (seq / mul32 ec.LedgersPerFile ec.FilesPerPartition
              * mul32 ec.LedgersPerFile ec.FilesPerPartition
              + mul32 ec.LedgersPerFile ec.FilesPerPartition - 1) MaxUint32) := by
  have hP : mul32 ec.LedgersPerFile ec.FilesPerPartition < two32 := Nat.mod_lt _ (by decide)
  have hs := div_mul_lt_two32 (mul32 ec.LedgersPerFile ec.FilesPerPartition) hseq
  simp only [partitionBounds]
  generalize mul32 ec.LedgersPerFile ec.FilesPerPartition = P at *
  have hm : mul32 (seq / P) P = seq / P * P := Nat.mod_eq_of_lt hs
  simp only [div32, if_neg h, hm]
  generalize seq / P * P = s at *
  clear hm
  simp only [add64, sub64, toUint32, two32, two64, MaxUint32] at *
  refine congrArg some (Prod.ext rfl ?_)
  show _ % 4294967296 = _
  split <;> omega

theorem partitionBounds_lt (ec : DataStoreSchema) (seq ps pe : Nat)
    (h : partitionBounds ec seq = some (ps, pe)) : ps < two32 ∧ pe < two32 := by
  unfold partitionBounds at h
  cases hq : div32 seq (mul32 ec.LedgersPerFile ec.FilesPerPartition) with
  | none => simp [hq] at h
  | some q =>
    simp only [hq, Option.some.injEq, Prod.mk.injEq] at h
    obtain ⟨h1, h2⟩ := h
    subst h1 h2
    exact ⟨Nat.mod_lt _ (by decide), Nat.mod_lt _ (by decide)⟩

theorem end_lt_two32 (ec : DataStoreSchema) (seq : Nat) :
    GetSequenceNumberEndBoundary ec seq < two32 := Nat.mod_lt _ (by decide)

/-! ## The key in terms of the layout -/

theorem two32_lt_two64 {x : Nat} (h : x < two32) : x < two64 :=
  Nat.lt_trans h (by decide)

theorem append_layout_two (D A B C S : String) :
    D ++ (A ++ "--" ++ B) ++ ("-" ++ C) ++ S = D ++ (A ++ "--" ++ B ++ ("-" ++ C)) ++ S := by
  simp only [String.append_assoc]

theorem append_layout_one (D A B S : String) :
    D ++ (A ++ "--" ++ B) ++ S = D ++ (A ++ "--" ++ B ++ "") ++ S := by
  rw [String.append_empty]

/-- The accumulated `objectKey` is the key layout applied to the boundaries the code
computes; the key is missing exactly when the partition block panics. -/
theorem key_eq_layout (ec : DataStoreSchema) (d : String) (seq : Nat) :
    GetObjectKeyFromSequenceNumber ec d seq =
      if ec.FilesPerPartition > 1 then
        (partitionBounds ec seq).map (fun pb =>
          keyLayout (some pb) (GetSequenceNumberStartBoundary ec seq)
            (GetSequenceNumberEndBoundary ec seq)
            (if ec.FileExtension = "" then d else ec.FileExtension))
      else
        some (keyLayout none (GetSequenceNumberStartBoundary ec seq)
          (GetSequenceNumberEndBoundary ec seq)
          (if ec.FileExtension = "" then d else ec.FileExtension)) := by
  have h1 := fmtHex08_sub32 _ (start_lt_two32 ec seq)
  have h2 := fmtDec_eq_dec _ (two32_lt_two64 (start_lt_two32 ec seq))
  have h3 := fmtDec_eq_dec _ (two32_lt_two64 (end_lt_two32 ec seq))
  unfold GetObjectKeyFromSequenceNumber keyLayout
  by_cases hF : ec.FilesPerPartition > 1
  · rw [if_pos hF, if_pos hF]
    cases hpb : partitionBounds ec seq with
    | none => exact rfl
    | some pb =>
      obtain ⟨ps, pe⟩ := pb
      obtain ⟨hps, hpe⟩ := partitionBounds_lt ec seq ps pe hpb
      have h4 := fmtHex08_sub32 ps hps
      have h5 := fmtDec_eq_dec ps (two32_lt_two64 hps)
      have h6 := fmtDec_eq_dec pe (two32_lt_two64 hpe)
      show some _ = some _
      rw [h4, h5, h6, h1, h2, h3]
      by_cases hne : GetSequenceNumberStartBoundary ec seq ≠ GetSequenceNumberEndBoundary ec seq
      · rw [if_pos hne, if_pos hne]
        exact congrArg some (append_layout_two _ _ _ _ _)
      · rw [if_neg hne, if_neg hne]
        exact congrArg some (append_layout_one _ _ _ _)
  · rw [if_neg hF, if_neg hF]
    show some _ = some _
    rw [h1, h2, h3]
    by_cases hne : GetSequenceNumberStartBoundary ec seq ≠ GetSequenceNumberEndBoundary ec seq
    · rw [if_pos hne, if_pos hne]
      exact congrArg some (append_layout_two _ _ _ _ _)
    · rw [if_neg hne, if_neg hne]
      exact congrArg some (append_layout_one _ _ _ _)

/-- Keys of the same directory are ordered against the file start boundaries. -/
theorem keyLayout_lt_of_fileStart (pb : Option (Nat × Nat)) {fa fb : Nat} (ea eb : Nat)
    (ext : String) (h : fa < fb) (hfb : fb < two32) :
    keyLayout pb fb eb ext < keyLayout pb fa ea ext := by
  unfold keyLayout
  simp only [String.append_assoc]
  apply string_append_lt_append_left
  apply hex8_append_lt
  · simp only [two32, MaxUint32] at *; omega
  · simp only [two32, MaxUint32] at *; omega

/-- Keys of different partitions are ordered against the partition start boundaries. -/
theorem keyLayout_lt_of_partitionStart {pa pb : Nat} (qa qb fa fb ea eb : Nat)
    (ext : String) (h : pa < pb) (hpb : pb < two32) :
    keyLayout (some (pb, qb)) fb eb ext < keyLayout (some (pa, qa)) fa ea ext := by
  unfold keyLayout
  simp only [String.append_assoc]
  apply hex8_append_lt
  · simp only [two32, MaxUint32] at *; omega
  · simp only [two32, MaxUint32] at *; omega

/-- The keys of two sequence numbers with different file start boundaries are strictly
ordered, for every configuration whose partition block does not panic. -/
theorem key_strict (ec : DataStoreSchema) (d : String) (a b : Nat)
    (hcfg : ec.FilesPerPartition > 1 → mul32 ec.LedgersPerFile ec.FilesPerPartition ≠ 0)
    (hab : a ≤ b) (hb : b < two32)
    (hst : GetSequenceNumberStartBoundary ec a < GetSequenceNumberStartBoundary ec b) :
    KeyGt (GetObjectKeyFromSequenceNumber ec d a) (GetObjectKeyFromSequenceNumber ec d b) := by
  have ha : a < two32 := Nat.lt_of_le_of_lt hab hb
  have hsb := start_lt_two32 ec b
  rw [key_eq_layout ec d a, key_eq_layout ec d b]
  by_cases hF : ec.FilesPerPartition > 1
  · have hP := hcfg hF
    simp only [if_pos hF, partitionBounds_eq ec a hP ha, partitionBounds_eq ec b hP hb,
      Option.map_some']
    refine ⟨_, _, rfl, rfl, ?_⟩
    have hmono : a / mul32 ec.LedgersPerFile ec.FilesPerPartition
          * mul32 ec.LedgersPerFile ec.FilesPerPartition
        ≤ b / mul32 ec.LedgersPerFile ec.FilesPerPartition
          * mul32 ec.LedgersPerFile ec.FilesPerPartition :=
      Nat.mul_le_mul_right _ (Nat.div_le_div_right hab)
    rcases Nat.lt_or_eq_of_le hmono with hlt | heq
    · exact keyLayout_lt_of_partitionStart _ _ _ _ _ _ _ hlt (div_mul_lt_two32 _ hb)
    · rw [heq]
      exact keyLayout_lt_of_fileStart _ _ _ _ hst hsb
  · simp only [if_neg hF]
    exact ⟨_, _, rfl, rfl, keyLayout_lt_of_fileStart _ _ _ _ hst hsb⟩

/-! ## Configurations whose partition size fits in 32 bits -/

theorem mul32_exact (ec : DataStoreSchema) (h : partitionSizeExact ec < two32) :
    mul32 ec.LedgersPerFile ec.FilesPerPartition = partitionSizeExact ec :=
  Nat.mod_eq_of_lt h

theorem partitionSizeExact_pos (ec : DataStoreSchema) (hL : 1 ≤ ec.LedgersPerFile)
    (hF : ec.FilesPerPartition > 1) : 0 < partitionSizeExact ec :=
  Nat.mul_pos (by omega) (by omega)

/-- When the product does not wrap, the partition block computes the exact partition
range. -/
theorem partitionBounds_exact (ec : DataStoreSchema) (seq : Nat)
    (hL : 1 ≤ ec.LedgersPerFile) (hF : ec.FilesPerPartition > 1)
    (hP : partitionSizeExact ec < two32) (hseq : seq < two32) :
    partitionBounds ec seq = some (partitionStartExact ec seq, partitionEndExact ec seq) := by
  have hpos := partitionSizeExact_pos ec hL hF
  have hm := mul32_exact ec hP
  rw [partitionBounds_eq ec seq (by rw [hm]; omega) hseq, hm]
  rfl

/-- Sequence numbers with the same file start have the same quotient by `LedgersPerFile`. -/
theorem div_eq_of_start_eq (ec : DataStoreSchema) (a b : Nat) (hL : 1 ≤ ec.LedgersPerFile)
    (ha : a < two32) (hb : b < two32)
    (hst : GetSequenceNumberStartBoundary ec a = GetSequenceNumberStartBoundary ec b) :
    a / ec.LedgersPerFile = b / ec.LedgersPerFile := by
  rw [start_eq ec a hL ha, start_eq ec b hL hb] at hst
  exact Nat.eq_of_mul_eq_mul_right (by omega) hst

/-- Two sequence numbers of one file get the same key when the partition size is exact. -/
theorem key_same (ec : DataStoreSchema) (d : String) (a b : Nat) (hL : 1 ≤ ec.LedgersPerFile)
    (hcfg : ec.FilesPerPartition > 1 → partitionSizeExact ec < two32)
    (ha : a < two32) (hb : b < two32)
    (hst : GetSequenceNumberStartBoundary ec a = GetSequenceNumberStartBoundary ec b) :
    GetObjectKeyFromSequenceNumber ec d a = GetObjectKeyFromSequenceNumber ec d b
    ∧ ∃ k, GetObjectKeyFromSequenceNumber ec d a = some k := by
  have hen := end_eq_of_start_eq ec b a hst
  rw [key_eq_layout ec d a, key_eq_layout ec d b, hst, hen]
  by_cases hF : ec.FilesPerPartition > 1
  · have hP := hcfg hF
    have hq : a / partitionSizeExact ec = b / partitionSizeExact ec := by
      unfold partitionSizeExact
      rw [← Nat.div_div_eq_div_mul, ← Nat.div_div_eq_div_mul,
        div_eq_of_start_eq ec a b hL ha hb hst]
    have hpe : partitionStartExact ec a = partitionStartExact ec b := by
      unfold partitionStartExact
      rw [hq]
    have hpe2 : partitionEndExact ec a = partitionEndExact ec b := by
      unfold partitionEndExact
      rw [hpe]
    simp only [if_pos hF, partitionBounds_exact ec a hL hF hP ha,
      partitionBounds_exact ec b hL hF hP hb, hpe, hpe2, Option.map_some']
    exact ⟨trivial, _, rfl⟩
  · simp only [if_neg hF]
    exact ⟨trivial, _, rfl⟩

/-- The start boundary is the largest multiple of `LedgersPerFile` below `seq`. -/
theorem start_largest (ec : DataStoreSchema) (seq m : Nat) (hL : 1 ≤ ec.LedgersPerFile)
    (hseq : seq < two32) (hdvd : ec.LedgersPerFile ∣ m) (hm : m ≤ seq) :
    m ≤ GetSequenceNumberStartBoundary ec seq := by
  obtain ⟨c, rfl⟩ := hdvd
  rw [start_eq ec seq hL hseq, Nat.mul_comm]
  apply Nat.mul_le_mul_right
  rw [Nat.le_div_iff_mul_le (by omega), Nat.mul_comm]
  exact hm

/-- When the product does not wrap, the partition range written in the key contains the
file range. -/
theorem partition_contains_file_exact (ec : DataStoreSchema) (seq : Nat)
    (hL : 1 ≤ ec.LedgersPerFile) (hF : ec.FilesPerPartition > 1)
    (hP : partitionSizeExact ec < two32) (hseq : seq < two32) :
    partitionStartExact ec seq ≤ GetSequenceNumberStartBoundary ec seq
    ∧ GetSequenceNumberEndBoundary ec seq ≤ partitionEndExact ec seq := by
  have hLt : ec.LedgersPerFile < two32 := by
    have : ec.LedgersPerFile * 1 ≤ ec.LedgersPerFile * ec.FilesPerPartition :=
      Nat.mul_le_mul_left _ (by omega)
    unfold partitionSizeExact at hP
    omega
  have h1 : partitionStartExact ec seq ≤ GetSequenceNumberStartBoundary ec seq := by
    apply start_largest ec seq _ hL hseq
    · unfold partitionStartExact partitionSizeExact
      exact ⟨ec.FilesPerPartition * (seq / (ec.LedgersPerFile * ec.FilesPerPartition)), by ring⟩
    · exact Nat.div_mul_le_self _ _
  refine ⟨h1, ?_⟩
  have h2 : GetSequenceNumberStartBoundary ec seq + ec.LedgersPerFile
      ≤ partitionStartExact ec seq + partitionSizeExact ec := by
    rw [start_eq ec seq hL hseq]
    unfold partitionStartExact partitionSizeExact
    rw [← Nat.div_div_eq_div_mul]
    have hq := Nat.div_add_mod (seq / ec.LedgersPerFile) ec.FilesPerPartition
    have hr := Nat.mod_lt (seq / ec.LedgersPerFile) (show 0 < ec.FilesPerPartition by omega)
    have hq2 : seq / ec.LedgersPerFile + 1
        ≤ seq / ec.LedgersPerFile / ec.FilesPerPartition * ec.FilesPerPartition
          + ec.FilesPerPartition := by
      rw [Nat.mul_comm] at hq
      omega
    calc seq / ec.LedgersPerFile * ec.LedgersPerFile + ec.LedgersPerFile
        = (seq / ec.LedgersPerFile + 1) * ec.LedgersPerFile := by ring
      _ ≤ (seq / ec.LedgersPerFile / ec.FilesPerPartition * ec.FilesPerPartition
          + ec.FilesPerPartition) * ec.LedgersPerFile := Nat.mul_le_mul_right _ hq2
      _ = seq / ec.LedgersPerFile / ec.FilesPerPartition
            * (ec.LedgersPerFile * ec.FilesPerPartition)
          + ec.LedgersPerFile * ec.FilesPerPartition := by ring
  rw [end_eq ec seq hL hLt]
  unfold partitionEndExact
  simp only [MaxUint32]
  omega

/-! ## Boundary calculator: the file range -/

/-- C4: for `LedgersPerFile >= 1` and a `uint32` sequence number the start boundary is
`floor(seq / LedgersPerFile) * LedgersPerFile` without 32-bit wraparound; it is a multiple
of `LedgersPerFile`, it does not exceed `seq`, `seq - result < LedgersPerFile`, and it is
the largest such multiple. -/
theorem start_boundary_largest_multiple (ec : DataStoreSchema) (seq : Nat)
    (hL : 1 ≤ ec.LedgersPerFile) (hseq : seq < two32) :
    GetSequenceNumberStartBoundary ec seq = seq / ec.LedgersPerFile * ec.LedgersPerFile
    ∧ ec.LedgersPerFile ∣ GetSequenceNumberStartBoundary ec seq
    ∧ GetSequenceNumberStartBoundary ec seq ≤ seq
    ∧ seq - GetSequenceNumberStartBoundary ec seq < ec.LedgersPerFile
    ∧ ∀ m, ec.LedgersPerFile ∣ m → m ≤ seq → m ≤ GetSequenceNumberStartBoundary ec seq := by
  have hlt := seq_lt_start_add ec seq hL hseq
  have hle := start_le ec seq hseq
  have heq := start_eq ec seq hL hseq
  refine ⟨heq, ?_, hle, by omega, ?_⟩
  · rw [heq]; exact Dvd.intro_left _ rfl
  · rintro m ⟨c, rfl⟩ hm
    rw [heq, Nat.mul_comm]
    apply Nat.mul_le_mul_right
    rw [Nat.le_div_iff_mul_le (by omega), Nat.mul_comm]
    exact hm

theorem start_boundary_largest_multiple_witness :
    1 ≤ (DataStoreSchema.mk 50 2 "").LedgersPerFile ∧ 4294967295 < two32
    ∧ GetSequenceNumberStartBoundary ⟨50, 2, ""⟩ 4294967295 = 4294967295 / 50 * 50
    ∧ GetSequenceNumberStartBoundary ⟨50, 2, ""⟩ 4294967295 ≤ 4294967295 :=
  ⟨by decide, by decide,
    (start_boundary_largest_multiple ⟨50, 2, ""⟩ 4294967295 (by decide) (by decide)).1,
    (start_boundary_largest_multiple ⟨50, 2, ""⟩ 4294967295 (by decide) (by decide)).2.2.1⟩

/-- C5: for `1 <= LedgersPerFile < 2^32` the end boundary is
`min(start + LedgersPerFile - 1, 2^32-1)` over exact integers; the range `[start, end]`
holds exactly `LedgersPerFile` sequence numbers unless the end was clamped, in which case
it ends at the ceiling and holds fewer. -/
theorem end_boundary_clamped (ec : DataStoreSchema) (seq : Nat)
    (hL : 1 ≤ ec.LedgersPerFile) (hLt : ec.LedgersPerFile < two32) :
    GetSequenceNumberEndBoundary ec seq =
      min (GetSequenceNumberStartBoundary ec seq + ec.LedgersPerFile - 1) MaxUint32
    ∧ (GetSequenceNumberStartBoundary ec seq + ec.LedgersPerFile - 1 ≤ MaxUint32 →
        (Finset.Icc (GetSequenceNumberStartBoundary ec seq)
          (GetSequenceNumberEndBoundary ec seq)).card = ec.LedgersPerFile)
    ∧ (MaxUint32 < GetSequenceNumberStartBoundary ec seq + ec.LedgersPerFile - 1 →
        GetSequenceNumberEndBoundary ec seq = MaxUint32 ∧
        (Finset.Icc (GetSequenceNumberStartBoundary ec seq)
          (GetSequenceNumberEndBoundary ec seq)).card < ec.LedgersPerFile) := by
  have heq := end_eq ec seq hL hLt
  have hs := start_lt_two32 ec seq
  rw [Nat.card_Icc, heq]
  simp only [two32, MaxUint32] at *
  refine ⟨trivial, ?_, ?_⟩ <;> intro h <;> omega

theorem end_boundary_clamped_witness :
    1 ≤ (DataStoreSchema.mk 200 1 "").LedgersPerFile
    ∧ (DataStoreSchema.mk 200 1 "").LedgersPerFile < two32
    ∧ GetSequenceNumberEndBoundary ⟨200, 1, ""⟩ 4294967295 =
      min (GetSequenceNumberStartBoundary ⟨200, 1, ""⟩ 4294967295 + 200 - 1) MaxUint32 :=
  ⟨by decide, by decide,
    (end_boundary_clamped ⟨200, 1, ""⟩ 4294967295 (by decide) (by decide)).1⟩

/-- C6: for `1 <= LedgersPerFile < 2^32` and every `uint32` sequence number,
`start(seq) <= seq <= end(seq)`. -/
theorem seq_within_file_range (ec : DataStoreSchema) (seq : Nat)
    (hL : 1 ≤ ec.LedgersPerFile) (hLt : ec.LedgersPerFile < two32) (hseq : seq < two32) :
    GetSequenceNumberStartBoundary ec seq ≤ seq
    ∧ seq ≤ GetSequenceNumberEndBoundary ec seq := by
  have hlt := seq_lt_start_add ec seq hL hseq
  refine ⟨start_le ec seq hseq, ?_⟩
  rw [end_eq ec seq hL hLt]
  simp only [two32, MaxUint32] at *
  omega

theorem seq_within_file_range_witness :
    1 ≤ (DataStoreSchema.mk 100 200 "").LedgersPerFile
    ∧ (DataStoreSchema.mk 100 200 "").LedgersPerFile < two32 ∧ 4294967295 < two32
    ∧ GetSequenceNumberStartBoundary ⟨100, 200, ""⟩ 4294967295 ≤ 4294967295
    ∧ 4294967295 ≤ GetSequenceNumberEndBoundary ⟨100, 200, ""⟩ 4294967295 :=
  ⟨by decide, by decide, by decide,
    seq_within_file_range ⟨100, 200, ""⟩ 4294967295 (by decide) (by decide) (by decide)⟩

/-- C7: file ranges tile the domain without overlap.  For `1 <= LedgersPerFile < 2^32` and
`uint32` numbers `seq`, `seq2`: if `seq2` lies in the file range of `seq` then it has the
same start and end boundaries; the two file ranges are identical or disjoint; and each of
the two numbers lies in its own range. -/
theorem file_ranges_tile (ec : DataStoreSchema) (seq seq2 : Nat)
    (hL : 1 ≤ ec.LedgersPerFile) (hLt : ec.LedgersPerFile < two32)
    (hseq : seq < two32) (hseq2 : seq2 < two32) :
    (GetSequenceNumberStartBoundary ec seq ≤ seq2 →
      seq2 ≤ GetSequenceNumberEndBoundary ec seq →
        GetSequenceNumberStartBoundary ec seq2 = GetSequenceNumberStartBoundary ec seq
        ∧ GetSequenceNumberEndBoundary ec seq2 = GetSequenceNumberEndBoundary ec seq)
    ∧ ((GetSequenceNumberStartBoundary ec seq2 = GetSequenceNumberStartBoundary ec seq
          ∧ GetSequenceNumberEndBoundary ec seq2 = GetSequenceNumberEndBoundary ec seq)
        ∨ GetSequenceNumberEndBoundary ec seq < GetSequenceNumberStartBoundary ec seq2
        ∨ GetSequenceNumberEndBoundary ec seq2 < GetSequenceNumberStartBoundary ec seq)
    ∧ (GetSequenceNumberStartBoundary ec seq ≤ seq ∧ seq ≤ GetSequenceNumberEndBoundary ec seq)
    ∧ (GetSequenceNumberStartBoundary ec seq2 ≤ seq2
        ∧ seq2 ≤ GetSequenceNumberEndBoundary ec seq2) := by
  have hmem : ∀ s t : Nat, s < two32 → t < two32 →
      GetSequenceNumberStartBoundary ec s ≤ t → t ≤ GetSequenceNumberEndBoundary ec s →
        GetSequenceNumberStartBoundary ec t = GetSequenceNumberStartBoundary ec s
        ∧ GetSequenceNumberEndBoundary ec t = GetSequenceNumberEndBoundary ec s := by
    intro s t hs ht h1 h2
    have hst : GetSequenceNumberStartBoundary ec t = GetSequenceNumberStartBoundary ec s := by
      apply start_eq_of_mem ec s t hL hs ht h1
      rw [end_eq ec s hL hLt] at h2
      have := start_lt_two32 ec s
      simp only [two32, MaxUint32] at *
      omega
    exact ⟨hst, end_eq_of_start_eq ec s t hst⟩
  have in1 : GetSequenceNumberStartBoundary ec seq ≤ seq
      ∧ seq ≤ GetSequenceNumberEndBoundary ec seq := by
    have hlt := seq_lt_start_add ec seq hL hseq
    refine ⟨start_le ec seq hseq, ?_⟩
    rw [end_eq ec seq hL hLt]
    simp only [two32, MaxUint32] at *
    omega
  have in2 : GetSequenceNumberStartBoundary ec seq2 ≤ seq2
      ∧ seq2 ≤ GetSequenceNumberEndBoundary ec seq2 := by
    have hlt := seq_lt_start_add ec seq2 hL hseq2
    refine ⟨start_le ec seq2 hseq2, ?_⟩
    rw [end_eq ec seq2 hL hLt]
    simp only [two32, MaxUint32] at *
    omega
  refine ⟨hmem seq seq2 hseq hseq2, ?_, in1, in2⟩
  by_cases hA : GetSequenceNumberStartBoundary ec seq ≤ seq2
  · by_cases hB : seq2 ≤ GetSequenceNumberEndBoundary ec seq
    · exact Or.inl (hmem seq seq2 hseq hseq2 hA hB)
    · right; left
      by_contra hC
      have hC2 : GetSequenceNumberStartBoundary ec seq2 ≤ GetSequenceNumberEndBoundary ec seq :=
        Nat.le_of_not_lt hC
      -- the end of the range of `seq` lies in both ranges
      have he0 : GetSequenceNumberEndBoundary ec seq < two32 := by
        rw [end_eq ec seq hL hLt]
        simp only [two32, MaxUint32]
        omega
      have hin2 : GetSequenceNumberEndBoundary ec seq ≤ GetSequenceNumberEndBoundary ec seq2 := by
        have := in2.2
        omega
      have hm := hmem seq2 (GetSequenceNumberEndBoundary ec seq) hseq2 he0 hC2 hin2
      have hself := hmem seq (GetSequenceNumberEndBoundary ec seq) hseq he0
        (Nat.le_trans in1.1 in1.2) (Nat.le_refl _)
      have hst : GetSequenceNumberStartBoundary ec seq2 = GetSequenceNumberStartBoundary ec seq := by
        rw [← hm.1, hself.1]
      have hen := end_eq_of_start_eq ec seq seq2 hst
      rw [← hen] at hB
      exact hB in2.2
  · right; right
    have h3 := in2.2
    by_contra hC
    have hC2 : GetSequenceNumberStartBoundary ec seq ≤ GetSequenceNumberEndBoundary ec seq2 :=
      Nat.le_of_not_lt hC
    -- the start of `seq` lies in the range of `seq2`
    have hs0 : GetSequenceNumberStartBoundary ec seq < two32 := start_lt_two32 ec seq
    have hin : GetSequenceNumberStartBoundary ec seq2 ≤ GetSequenceNumberStartBoundary ec seq := by
      have := in2.1
      omega
    have hm := hmem seq2 (GetSequenceNumberStartBoundary ec seq) hseq2 hs0 hin hC2
    have hself := hmem seq (GetSequenceNumberStartBoundary ec seq) hseq hs0 (Nat.le_refl _)
      (Nat.le_trans in1.1 in1.2)
    have : GetSequenceNumberStartBoundary ec seq2 = GetSequenceNumberStartBoundary ec seq := by
      rw [← hm.1, hself.1]
    have := in2.1
    omega

theorem file_ranges_tile_witness :
    1 ≤ (DataStoreSchema.mk 50 2 "").LedgersPerFile
    ∧ (DataStoreSchema.mk 50 2 "").LedgersPerFile < two32 ∧ 150 < two32 ∧ 199 < two32
    ∧ GetSequenceNumberStartBoundary ⟨50, 2, ""⟩ 150 ≤ 150
    ∧ 150 ≤ GetSequenceNumberEndBoundary ⟨50, 2, ""⟩ 150 :=
  ⟨by decide, by decide, by decide, by decide,
    (file_ranges_tile ⟨50, 2, ""⟩ 150 199 (by decide) (by decide) (by decide)
      (by decide)).2.2.1⟩

/-! ## Key encoder: ordering of the keys -/

/-- C1 (as stated, refuted): with `LedgersPerFile = 10` and no partition directory the
sequence numbers `0 < 5` lie in the same file and receive the same key
`FFFFFFFF--0-9.xdr.zst`, so the key of `0` is not strictly greater than the key of `5`. -/
theorem key_strict_desc_counterexample :
    1 ≤ (DataStoreSchema.mk 10 0 "").LedgersPerFile ∧ (0 : Nat) < 5 ∧ 5 < two32
    ∧ GetObjectKeyFromSequenceNumber ⟨10, 0, ""⟩ "zst" 0 = some "FFFFFFFF--0-9.xdr.zst"
    ∧ GetObjectKeyFromSequenceNumber ⟨10, 0, ""⟩ "zst" 5 = some "FFFFFFFF--0-9.xdr.zst"
    ∧ ¬ KeyGt (GetObjectKeyFromSequenceNumber ⟨10, 0, ""⟩ "zst" 0)
          (GetObjectKeyFromSequenceNumber ⟨10, 0, ""⟩ "zst" 5) := by
  have e0 : GetObjectKeyFromSequenceNumber ⟨10, 0, ""⟩ "zst" 0
      = some "FFFFFFFF--0-9.xdr.zst" := by decide
  have e5 : GetObjectKeyFromSequenceNumber ⟨10, 0, ""⟩ "zst" 5
      = some "FFFFFFFF--0-9.xdr.zst" := by decide
  refine ⟨by decide, by decide, by decide, e0, e5, ?_⟩
  rintro ⟨ka, kb, h1, h2, h3⟩
  rw [e0] at h1
  rw [e5] at h2
  cases h1
  cases h2
  exact lt_irrefl _ h3

/-- C1 (amended): for `LedgersPerFile >= 1`, with a partition size
`LedgersPerFile * FilesPerPartition` below `2^32` when `FilesPerPartition > 1`, and
`uint32` numbers `a < b`: if `a` and `b` have different file start boundaries the key of
`a` is strictly greater than the key of `b`; if they have the same file start boundary
both receive the same key. -/
theorem key_desc_across_files (ec : DataStoreSchema) (d : String) (a b : Nat)
    (hL : 1 ≤ ec.LedgersPerFile)
    (hcfg : ec.FilesPerPartition > 1 → partitionSizeExact ec < two32)
    (hab : a < b) (hb : b < two32) :
    (GetSequenceNumberStartBoundary ec a ≠ GetSequenceNumberStartBoundary ec b →
      KeyGt (GetObjectKeyFromSequenceNumber ec d a) (GetObjectKeyFromSequenceNumber ec d b))
    ∧ (GetSequenceNumberStartBoundary ec a = GetSequenceNumberStartBoundary ec b →
      GetObjectKeyFromSequenceNumber ec d a = GetObjectKeyFromSequenceNumber ec d b
      ∧ ∃ k, GetObjectKeyFromSequenceNumber ec d a = some k) := by
  have ha : a < two32 := Nat.lt_trans hab hb
  constructor
  · intro hne
    apply key_strict ec d a b _ (Nat.le_of_lt hab) hb
    · exact Nat.lt_of_le_of_ne (start_mono ec (Nat.le_of_lt hab) hb) hne
    · intro hF
      rw [mul32_exact ec (hcfg hF)]
      exact Nat.pos_iff_ne_zero.mp (partitionSizeExact_pos ec hL hF)
  · intro heq
    exact key_same ec d a b hL hcfg ha hb heq

theorem key_desc_across_files_witness :
    1 ≤ (DataStoreSchema.mk 50 2 "").LedgersPerFile
    ∧ ((DataStoreSchema.mk 50 2 "").FilesPerPartition > 1 →
        partitionSizeExact ⟨50, 2, ""⟩ < two32)
    ∧ (149 : Nat) < 150 ∧ 150 < two32
    ∧ (GetSequenceNumberStartBoundary ⟨50, 2, ""⟩ 149
        ≠ GetSequenceNumberStartBoundary ⟨50, 2, ""⟩ 150 →
      KeyGt (GetObjectKeyFromSequenceNumber ⟨50, 2, ""⟩ "zst" 149)
        (GetObjectKeyFromSequenceNumber ⟨50, 2, ""⟩ "zst" 150)) :=
  ⟨by decide, fun _ => by decide, by decide, by decide,
    (key_desc_across_files ⟨50, 2, ""⟩ "zst" 149 150 (by decide) (fun _ => by decide)
      (by decide) (by decide)).1⟩

/-- C2: with `LedgersPerFile = 1` and any `uint32` `FilesPerPartition`, for all `uint32`
sequence numbers `a < b` (the edges `0` and `2^32-1` included) both keys are produced and
the key of `a` is strictly greater than the key of `b` in lexicographic order. -/
theorem key_desc_single_ledger_files (ec : DataStoreSchema) (d : String) (a b : Nat)
    (hL : ec.LedgersPerFile = 1) (hF : ec.FilesPerPartition < two32)
    (hab : a < b) (hb : b < two32) :
    KeyGt (GetObjectKeyFromSequenceNumber ec d a) (GetObjectKeyFromSequenceNumber ec d b) := by
  have ha : a < two32 := Nat.lt_trans hab hb
  apply key_strict ec d a b _ (Nat.le_of_lt hab) hb
  · rw [start_eq ec a (by omega) ha, start_eq ec b (by omega) hb, hL]
    simpa using hab
  · intro hF1
    unfold mul32
    rw [hL, Nat.one_mul, Nat.mod_eq_of_lt hF]
    omega

theorem key_desc_single_ledger_files_witness :
    (DataStoreSchema.mk 1 10 "").LedgersPerFile = 1
    ∧ (DataStoreSchema.mk 1 10 "").FilesPerPartition < two32
    ∧ (0 : Nat) < 4294967295 ∧ 4294967295 < two32
    ∧ KeyGt (GetObjectKeyFromSequenceNumber ⟨1, 10, ""⟩ "zst" 0)
        (GetObjectKeyFromSequenceNumber ⟨1, 10, ""⟩ "zst" 4294967295) :=
  ⟨by decide, by decide, by decide, by decide,
    key_desc_single_ledger_files ⟨1, 10, ""⟩ "zst" 0 4294967295 (by decide) (by decide)
      (by decide) (by decide)⟩

/-! ## Key encoder: the 32-bit partition size -/

/-- C3 (the code at the failing input): with `LedgersPerFile = FilesPerPartition = 65536`
the 32-bit product is `0` and the division by the partition size panics, so no key is
returned, although `LedgersPerFile >= 1` and both counters are `uint32` values. -/
theorem key_panics_on_wrapped_size :
    1 ≤ (DataStoreSchema.mk 65536 65536 "").LedgersPerFile
    ∧ DataStoreSchema.WellTyped ⟨65536, 65536, ""⟩
    ∧ mul32 65536 65536 = 0
    ∧ GetObjectKeyFromSequenceNumber ⟨65536, 65536, ""⟩ "zst" 0 = none := by
  refine ⟨by decide, ⟨by decide, by decide⟩, by decide, by decide⟩

/-- C8 (the code at the failing input): with `LedgersPerFile = 65536` and
`FilesPerPartition = 65537` the exact product is `2^32 + 65536`, the exact partition of
`seq = 65536` is `[0, 2^32-1]`, but the code works with the wrapped size `65536` and writes
the partition `[65536, 131071]` into the key. -/
theorem partition_from_wrapped_size :
    partitionSizeExact ⟨65536, 65537, ""⟩ = two32 + 65536
    ∧ partitionStartExact ⟨65536, 65537, ""⟩ 65536 = 0
    ∧ partitionEndExact ⟨65536, 65537, ""⟩ 65536 = MaxUint32
    ∧ partitionBounds ⟨65536, 65537, ""⟩ 65536 = some (65536, 131071)
    ∧ GetObjectKeyFromSequenceNumber ⟨65536, 65537, ""⟩ "zst" 65536
        = some "FFFEFFFF--65536-131071/FFFEFFFF--65536-131071.xdr.zst" := by
  refine ⟨by decide, by decide, by decide, by decide, by decide⟩

/-- C9 (the code at the failing input): with `LedgersPerFile = 3` and
`FilesPerPartition = 1431655766` the product `2^32 + 2` wraps to `2`; for `seq = 5` the key
carries the partition `[4, 5]` while the file range is `[3, 5]`, so the partition start
exceeds the file start. -/
theorem partition_misses_file_start :
    mul32 3 1431655766 = 2
    ∧ partitionBounds ⟨3, 1431655766, ""⟩ 5 = some (4, 5)
    ∧ GetSequenceNumberStartBoundary ⟨3, 1431655766, ""⟩ 5 = 3
    ∧ GetSequenceNumberEndBoundary ⟨3, 1431655766, ""⟩ 5 = 5
    ∧ GetObjectKeyFromSequenceNumber ⟨3, 1431655766, ""⟩ "zst" 5
        = some "FFFFFFFB--4-5/FFFFFFFC--3-5.xdr.zst" := by
  refine ⟨by decide, by decide, by decide, by decide, by decide⟩

/-! ## Key encoder: the layout of the key -/

/-- C10: whenever a key is produced it is the layout: the directory component
`hex8(2^32-1 - partitionStart)--partitionStart-partitionEnd/` exactly when
`FilesPerPartition > 1`, then `hex8(2^32-1 - fileStart)--fileStart` followed by `-fileEnd`
exactly when `fileStart != fileEnd`, then `.xdr.` and the extension (`FileExtension` if
non-empty, else the default compressor name).  With `FilesPerPartition` equal to `0` or
`1` the key is the same and has no directory component. -/
theorem key_is_layout (ec : DataStoreSchema) (d : String) (seq : Nat) (k : String)
    (hk : GetObjectKeyFromSequenceNumber ec d seq = some k) :
    (ec.FilesPerPartition > 1 →
      ∃ partitionStart partitionEnd,
        partitionBounds ec seq = some (partitionStart, partitionEnd)
        ∧ k = keyLayout (some (partitionStart, partitionEnd))
            (GetSequenceNumberStartBoundary ec seq) (GetSequenceNumberEndBoundary ec seq)
            (if ec.FileExtension = "" then d else ec.FileExtension))
    ∧ (¬ ec.FilesPerPartition > 1 →
        k = keyLayout none
            (GetSequenceNumberStartBoundary ec seq) (GetSequenceNumberEndBoundary ec seq)
            (if ec.FileExtension = "" then d else ec.FileExtension))
    ∧ GetObjectKeyFromSequenceNumber ⟨ec.LedgersPerFile, 0, ec.FileExtension⟩ d seq
        = some (keyLayout none
            (GetSequenceNumberStartBoundary ec seq) (GetSequenceNumberEndBoundary ec seq)
            (if ec.FileExtension = "" then d else ec.FileExtension))
    ∧ GetObjectKeyFromSequenceNumber ⟨ec.LedgersPerFile, 1, ec.FileExtension⟩ d seq
        = GetObjectKeyFromSequenceNumber ⟨ec.LedgersPerFile, 0, ec.FileExtension⟩ d seq := by
  rw [key_eq_layout ec d seq] at hk
  refine ⟨?_, ?_, ?_, ?_⟩
  · intro hF
    rw [if_pos hF] at hk
    cases hpb : partitionBounds ec seq with
    | none => rw [hpb] at hk; simp at hk
    | some pb =>
      rw [hpb, Option.map_some'] at hk
      exact ⟨pb.1, pb.2, rfl, (Option.some.inj hk).symm⟩
  · intro hF
    rw [if_neg hF] at hk
    exact (Option.some.inj hk).symm
  · rw [key_eq_layout]
    rfl
  · rw [key_eq_layout, key_eq_layout]
    rfl

theorem key_is_layout_witness :
    GetObjectKeyFromSequenceNumber ⟨50, 2, ""⟩ "zst" 150
      = some "FFFFFF9B--100-199/FFFFFF69--150-199.xdr.zst"
    ∧ ((DataStoreSchema.mk 50 2 "").FilesPerPartition > 1 →
      ∃ partitionStart partitionEnd,
        partitionBounds ⟨50, 2, ""⟩ 150 = some (partitionStart, partitionEnd)
        ∧ "FFFFFF9B--100-199/FFFFFF69--150-199.xdr.zst"
          = keyLayout (some (partitionStart, partitionEnd))
            (GetSequenceNumberStartBoundary ⟨50, 2, ""⟩ 150)
            (GetSequenceNumberEndBoundary ⟨50, 2, ""⟩ 150)
            (if (DataStoreSchema.mk 50 2 "").FileExtension = "" then "zst"
              else (DataStoreSchema.mk 50 2 "").FileExtension)) :=
  ⟨by decide,
    (key_is_layout ⟨50, 2, ""⟩ "zst" 150 "FFFFFF9B--100-199/FFFFFF69--150-199.xdr.zst"
      (by decide)).1⟩

/-! ## Key encoder: weak order, collisions and failure -/

/-- The keys of `a <= b` are weakly ordered for every configuration whose partition block
does not panic, whether or not the 32-bit partition size has wrapped. -/
theorem key_weak (ec : DataStoreSchema) (d : String) (a b : Nat)
    (hcfg : ec.FilesPerPartition > 1 → mul32 ec.LedgersPerFile ec.FilesPerPartition ≠ 0)
    (hab : a ≤ b) (hb : b < two32) :
    KeyGe (GetObjectKeyFromSequenceNumber ec d a) (GetObjectKeyFromSequenceNumber ec d b) := by
  have ha : a < two32 := Nat.lt_of_le_of_lt hab hb
  have hsb := start_lt_two32 ec b
  have hfile : ∀ pb : Option (Nat × Nat),
      keyLayout pb (GetSequenceNumberStartBoundary ec b) (GetSequenceNumberEndBoundary ec b)
          (if ec.FileExtension = "" then d else ec.FileExtension)
        ≤ keyLayout pb (GetSequenceNumberStartBoundary ec a) (GetSequenceNumberEndBoundary ec a)
          (if ec.FileExtension = "" then d else ec.FileExtension) := by
    intro pb
    rcases Nat.lt_or_eq_of_le (start_mono ec hab hb) with hlt | heq
    · exact le_of_lt (keyLayout_lt_of_fileStart _ _ _ _ hlt hsb)
    · rw [end_eq_of_start_eq ec b a heq, heq]
  rw [key_eq_layout ec d a, key_eq_layout ec d b]
  by_cases hF : ec.FilesPerPartition > 1
  · have hP := hcfg hF
    simp only [if_pos hF, partitionBounds_eq ec a hP ha, partitionBounds_eq ec b hP hb,
      Option.map_some']
    refine ⟨_, _, rfl, rfl, ?_⟩
    have hmono : a / mul32 ec.LedgersPerFile ec.FilesPerPartition
          * mul32 ec.LedgersPerFile ec.FilesPerPartition
        ≤ b / mul32 ec.LedgersPerFile ec.FilesPerPartition
          * mul32 ec.LedgersPerFile ec.FilesPerPartition :=
      Nat.mul_le_mul_right _ (Nat.div_le_div_right hab)
    rcases Nat.lt_or_eq_of_le hmono with hlt | heq
    · exact le_of_lt
        (keyLayout_lt_of_partitionStart _ _ _ _ _ _ _ hlt (div_mul_lt_two32 _ hb))
    · rw [heq]
      exact hfile _
  · simp only [if_neg hF]
    exact ⟨_, _, rfl, rfl, hfile none⟩

theorem key_ne_of_keyGt {x y : Option String} (h : KeyGt x y) : x ≠ y := by
  obtain ⟨kx, ky, hx, hy, hlt⟩ := h
  intro hxy
  rw [hx, hy] at hxy
  rw [Option.some.inj hxy] at hlt
  exact lt_irrefl _ hlt

theorem exact_cfg_nonzero (ec : DataStoreSchema) (hL : 1 ≤ ec.LedgersPerFile)
    (hcfg : ec.FilesPerPartition > 1 → partitionSizeExact ec < two32) :
    ec.FilesPerPartition > 1 → mul32 ec.LedgersPerFile ec.FilesPerPartition ≠ 0 := by
  intro hF
  rw [mul32_exact ec (hcfg hF)]
  exact Nat.pos_iff_ne_zero.mp (partitionSizeExact_pos ec hL hF)

/-- Sequence numbers of different files get different keys when the partition size is
exact. -/
theorem key_ne_of_start_ne (ec : DataStoreSchema) (d : String) (a b : Nat)
    (hL : 1 ≤ ec.LedgersPerFile)
    (hcfg : ec.FilesPerPartition > 1 → partitionSizeExact ec < two32)
    (ha : a < two32) (hb : b < two32)
    (hne : GetSequenceNumberStartBoundary ec a ≠ GetSequenceNumberStartBoundary ec b) :
    GetObjectKeyFromSequenceNumber ec d a ≠ GetObjectKeyFromSequenceNumber ec d b := by
  have hnz := exact_cfg_nonzero ec hL hcfg
  rcases Nat.le_total a b with hab | hba
  · exact key_ne_of_keyGt (key_strict ec d a b hnz hab hb
      (Nat.lt_of_le_of_ne (start_mono ec hab hb) hne))
  · exact (key_ne_of_keyGt (key_strict ec d b a hnz hba ha
      (Nat.lt_of_le_of_ne (start_mono ec hba ha) (Ne.symm hne)))).symm

/-- The key is missing exactly when the partition block runs with a zero size. -/
theorem key_none_iff (ec : DataStoreSchema) (d : String) (seq : Nat) :
    GetObjectKeyFromSequenceNumber ec d seq = none
      ↔ ec.FilesPerPartition > 1 ∧ mul32 ec.LedgersPerFile ec.FilesPerPartition = 0 := by
  rw [key_eq_layout ec d seq]
  by_cases hF : ec.FilesPerPartition > 1
  · rw [if_pos hF]
    by_cases hP : mul32 ec.LedgersPerFile ec.FilesPerPartition = 0
    · rw [partitionBounds_none ec seq hP]
      exact ⟨fun _ => ⟨hF, hP⟩, fun _ => rfl⟩
    · have hsome : ∃ pb, partitionBounds ec seq = some pb := by
        simp only [partitionBounds, div32, if_neg hP]
        exact ⟨_, rfl⟩
      obtain ⟨pb, hpb⟩ := hsome
      rw [hpb, Option.map_some']
      exact ⟨fun h => absurd h (by simp), fun h => absurd h.2 hP⟩
  · rw [if_neg hF]
    exact ⟨fun h => absurd h (by simp), fun h => absurd h.1 hF⟩

/-- C12: at the domain ceiling every end boundary is clamped, not wrapped.  For
`1 <= LedgersPerFile < 2^32` the file end of `2^32-1` is `2^32-1`, and whenever
`FilesPerPartition > 1` and a key is produced for `2^32-1`, the partition end written in
the key is `4294967295` as well. -/
theorem end_boundaries_at_ceiling (ec : DataStoreSchema) (d : String)
    (hL : 1 ≤ ec.LedgersPerFile) (hLt : ec.LedgersPerFile < two32) :
    GetSequenceNumberEndBoundary ec MaxUint32 = MaxUint32
    ∧ (ec.FilesPerPartition > 1 → ∀ k,
        GetObjectKeyFromSequenceNumber ec d MaxUint32 = some k →
          ∃ partitionStart,
            partitionBounds ec MaxUint32 = some (partitionStart, 4294967295)
            ∧ k = keyLayout (some (partitionStart, 4294967295))
                (GetSequenceNumberStartBoundary ec MaxUint32)
                (GetSequenceNumberEndBoundary ec MaxUint32)
                (if ec.FileExtension = "" then d else ec.FileExtension)) := by
  have hmax : MaxUint32 < two32 := by decide
  constructor
  · have hlt := seq_lt_start_add ec MaxUint32 hL hmax
    rw [end_eq ec MaxUint32 hL hLt]
    simp only [MaxUint32] at *
    omega
  · intro hF k hk
    have hP : mul32 ec.LedgersPerFile ec.FilesPerPartition ≠ 0 := by
      intro h0
      rw [(key_none_iff ec d MaxUint32).mpr ⟨hF, h0⟩] at hk
      exact absurd hk (by simp)
    have hpe : min (MaxUint32 / mul32 ec.LedgersPerFile ec.FilesPerPartition
          * mul32 ec.LedgersPerFile ec.FilesPerPartition
          + mul32 ec.LedgersPerFile ec.FilesPerPartition - 1) MaxUint32 = 4294967295 := by
      have hdm := Nat.div_add_mod MaxUint32 (mul32 ec.LedgersPerFile ec.FilesPerPartition)
      have hr := Nat.mod_lt MaxUint32 (Nat.pos_of_ne_zero hP)
      rw [Nat.mul_comm] at hdm
      generalize mul32 ec.LedgersPerFile ec.FilesPerPartition = P at *
      generalize MaxUint32 / P * P = q at *
      simp only [MaxUint32] at *
      omega
    have hpb := partitionBounds_eq ec MaxUint32 hP hmax
    rw [hpe] at hpb
    refine ⟨_, hpb, ?_⟩
    rw [key_eq_layout ec d MaxUint32, if_pos hF, hpb, Option.map_some'] at hk
    exact (Option.some.inj hk).symm

theorem end_boundaries_at_ceiling_witness :
    1 ≤ (DataStoreSchema.mk 100 200 "").LedgersPerFile
    ∧ (DataStoreSchema.mk 100 200 "").LedgersPerFile < two32
    ∧ GetSequenceNumberEndBoundary ⟨100, 200, ""⟩ MaxUint32 = MaxUint32 :=
  ⟨by decide, by decide,
    (end_boundaries_at_ceiling ⟨100, 200, ""⟩ "zst" (by decide) (by decide)).1⟩

/-- C13 (as stated, refuted): with `LedgersPerFile = 100` and `FilesPerPartition = 2` the
distinct sequence numbers `10` and `20` lie in the same file and receive the same key. -/
theorem key_unique_counterexample :
    1 ≤ (DataStoreSchema.mk 100 2 "").LedgersPerFile ∧ (10 : Nat) ≠ 20
    ∧ 10 < two32 ∧ 20 < two32
    ∧ GetObjectKeyFromSequenceNumber ⟨100, 2, ""⟩ "zst" 10
        = GetObjectKeyFromSequenceNumber ⟨100, 2, ""⟩ "zst" 20
    ∧ GetObjectKeyFromSequenceNumber ⟨100, 2, ""⟩ "zst" 10
        = some "FFFFFFFF--0-199/FFFFFFFF--0-99.xdr.zst" := by
  refine ⟨by decide, by decide, by decide, by decide, by decide, by decide⟩

/-- C13 (amended): under a fixed config with `LedgersPerFile >= 1` (and a partition size
below `2^32` when `FilesPerPartition > 1`) keys are unique per file: `uint32` sequence
numbers with different file start boundaries get different keys; with
`LedgersPerFile = 1` every two distinct sequence numbers get different keys. -/
theorem key_unique_per_file (ec : DataStoreSchema) (d : String) (a b : Nat)
    (hL : 1 ≤ ec.LedgersPerFile)
    (hcfg : ec.FilesPerPartition > 1 → partitionSizeExact ec < two32)
    (ha : a < two32) (hb : b < two32) :
    (GetSequenceNumberStartBoundary ec a ≠ GetSequenceNumberStartBoundary ec b →
      GetObjectKeyFromSequenceNumber ec d a ≠ GetObjectKeyFromSequenceNumber ec d b)
    ∧ (ec.LedgersPerFile = 1 → a ≠ b →
      GetObjectKeyFromSequenceNumber ec d a ≠ GetObjectKeyFromSequenceNumber ec d b) := by
  refine ⟨key_ne_of_start_ne ec d a b hL hcfg ha hb, ?_⟩
  intro h1 hab
  apply key_ne_of_start_ne ec d a b hL hcfg ha hb
  rw [start_eq ec a hL ha, start_eq ec b hL hb, h1]
  simpa using hab

theorem key_unique_per_file_witness :
    1 ≤ (DataStoreSchema.mk 100 2 "").LedgersPerFile
    ∧ ((DataStoreSchema.mk 100 2 "").FilesPerPartition > 1 →
        partitionSizeExact ⟨100, 2, ""⟩ < two32)
    ∧ 10 < two32 ∧ 110 < two32
    ∧ (GetSequenceNumberStartBoundary ⟨100, 2, ""⟩ 10
        ≠ GetSequenceNumberStartBoundary ⟨100, 2, ""⟩ 110 →
      GetObjectKeyFromSequenceNumber ⟨100, 2, ""⟩ "zst" 10
        ≠ GetObjectKeyFromSequenceNumber ⟨100, 2, ""⟩ "zst" 110) :=
  ⟨by decide, fun _ => by decide, by decide, by decide,
    (key_unique_per_file ⟨100, 2, ""⟩ "zst" 10 110 (by decide) (fun _ => by decide)
      (by decide) (by decide)).1⟩

/-- C16: for every config for which keys are produced (`FilesPerPartition <= 1`, or the
product `LedgersPerFile * FilesPerPartition` is non-zero modulo `2^32`) and all `uint32`
numbers `a <= b`, both keys are produced and the key of `a` is greater than or equal to
the key of `b` in lexicographic order. -/
theorem key_weakly_desc (ec : DataStoreSchema) (d : String) (a b : Nat)
    (hcfg : ec.FilesPerPartition ≤ 1
      ∨ (ec.LedgersPerFile * ec.FilesPerPartition) % two32 ≠ 0)
    (hab : a ≤ b) (hb : b < two32) :
    KeyGe (GetObjectKeyFromSequenceNumber ec d a) (GetObjectKeyFromSequenceNumber ec d b) := by
  apply key_weak ec d a b _ hab hb
  intro hF
  rcases hcfg with h | h
  · omega
  · exact h

theorem key_weakly_desc_witness :
    ((DataStoreSchema.mk 3 1431655766 "").FilesPerPartition ≤ 1
      ∨ ((DataStoreSchema.mk 3 1431655766 "").LedgersPerFile
          * (DataStoreSchema.mk 3 1431655766 "").FilesPerPartition) % two32 ≠ 0)
    ∧ (3 : Nat) ≤ 4 ∧ 4 < two32
    ∧ KeyGe (GetObjectKeyFromSequenceNumber ⟨3, 1431655766, ""⟩ "zst" 3)
        (GetObjectKeyFromSequenceNumber ⟨3, 1431655766, ""⟩ "zst" 4) :=
  ⟨Or.inr (by decide), by decide, by decide,
    key_weakly_desc ⟨3, 1431655766, ""⟩ "zst" 3 4 (Or.inr (by decide)) (by decide)
      (by decide)⟩

/-- C17: for `LedgersPerFile >= 1` and either `FilesPerPartition <= 1` or
`LedgersPerFile * FilesPerPartition < 2^32`, two `uint32` sequence numbers get the same
key if and only if they have the same file start boundary. -/
theorem key_eq_iff_same_file (ec : DataStoreSchema) (d : String) (a b : Nat)
    (hL : 1 ≤ ec.LedgersPerFile)
    (hcfg : ec.FilesPerPartition ≤ 1 ∨ ec.LedgersPerFile * ec.FilesPerPartition < two32)
    (ha : a < two32) (hb : b < two32) :
    GetObjectKeyFromSequenceNumber ec d a = GetObjectKeyFromSequenceNumber ec d b
      ↔ GetSequenceNumberStartBoundary ec a = GetSequenceNumberStartBoundary ec b := by
  have hcfg2 : ec.FilesPerPartition > 1 → partitionSizeExact ec < two32 := by
    intro hF
    rcases hcfg with h | h
    · omega
    · exact h
  constructor
  · intro hk
    by_contra hne
    exact key_ne_of_start_ne ec d a b hL hcfg2 ha hb hne hk
  · intro hst
    exact (key_same ec d a b hL hcfg2 ha hb hst).1

theorem key_eq_iff_same_file_witness :
    1 ≤ (DataStoreSchema.mk 50 2 "").LedgersPerFile
    ∧ ((DataStoreSchema.mk 50 2 "").FilesPerPartition ≤ 1
        ∨ (DataStoreSchema.mk 50 2 "").LedgersPerFile
            * (DataStoreSchema.mk 50 2 "").FilesPerPartition < two32)
    ∧ 150 < two32 ∧ 199 < two32
    ∧ (GetObjectKeyFromSequenceNumber ⟨50, 2, ""⟩ "zst" 150
        = GetObjectKeyFromSequenceNumber ⟨50, 2, ""⟩ "zst" 199
      ↔ GetSequenceNumberStartBoundary ⟨50, 2, ""⟩ 150
        = GetSequenceNumberStartBoundary ⟨50, 2, ""⟩ 199) :=
  ⟨by decide, Or.inr (by decide), by decide, by decide,
    key_eq_iff_same_file ⟨50, 2, ""⟩ "zst" 150 199 (by decide) (Or.inr (by decide))
      (by decide) (by decide)⟩

/-- C18: the key encoder fails (integer division by zero) if and only if
`FilesPerPartition > 1` and the 32-bit product `LedgersPerFile * FilesPerPartition` is `0`
modulo `2^32`; it fails for one sequence number exactly when it fails for any other; it
fails for `LedgersPerFile = 0, FilesPerPartition = 2` and for
`LedgersPerFile = FilesPerPartition = 65536`. -/
theorem key_fails_iff_zero_size :
    (∀ (ec : DataStoreSchema) (d : String) (seq : Nat),
      GetObjectKeyFromSequenceNumber ec d seq = none
        ↔ ec.FilesPerPartition > 1
          ∧ (ec.LedgersPerFile * ec.FilesPerPartition) % two32 = 0)
    ∧ (∀ (ec : DataStoreSchema) (d : String) (seq seq2 : Nat),
      GetObjectKeyFromSequenceNumber ec d seq = none
        ↔ GetObjectKeyFromSequenceNumber ec d seq2 = none)
    ∧ (∀ (d : String) (seq : Nat), GetObjectKeyFromSequenceNumber ⟨0, 2, ""⟩ d seq = none)
    ∧ (∀ (d : String) (seq : Nat),
      GetObjectKeyFromSequenceNumber ⟨65536, 65536, ""⟩ d seq = none) := by
  refine ⟨fun ec d seq => key_none_iff ec d seq, ?_, ?_, ?_⟩
  · intro ec d seq seq2
    rw [key_none_iff ec d seq, key_none_iff ec d seq2]
  · intro d seq
    exact (key_none_iff _ d seq).mpr ⟨by decide, by decide⟩
  · intro d seq
    exact (key_none_iff _ d seq).mpr ⟨by decide, by decide⟩

/-- C19: in the degenerate mode `LedgersPerFile = 0` the start boundary of every
sequence number is `0` and the end boundary is `2^32-1`: the 64-bit intermediate
`0 + 0 - 1` wraps to `2^64-1` and is clamped. -/
theorem degenerate_single_range (ec : DataStoreSchema) (seq : Nat)
    (hL : ec.LedgersPerFile = 0) :
    GetSequenceNumberStartBoundary ec seq = 0
    ∧ sub64 (add64 (GetSequenceNumberStartBoundary ec seq) ec.LedgersPerFile) 1 = two64 - 1
    ∧ GetSequenceNumberEndBoundary ec seq = MaxUint32 := by
  have hs : GetSequenceNumberStartBoundary ec seq = 0 := by
    unfold GetSequenceNumberStartBoundary
    rw [if_pos hL]
  have hw : sub64 (add64 (GetSequenceNumberStartBoundary ec seq) ec.LedgersPerFile) 1
      = two64 - 1 := by
    rw [hs, hL]
    decide
  refine ⟨hs, hw, ?_⟩
  unfold GetSequenceNumberEndBoundary
  rw [hw]
  decide

theorem degenerate_single_range_witness :
    (DataStoreSchema.mk 0 1 "").LedgersPerFile = 0
    ∧ GetSequenceNumberStartBoundary ⟨0, 1, ""⟩ 12345 = 0
    ∧ GetSequenceNumberEndBoundary ⟨0, 1, ""⟩ 12345 = MaxUint32 :=
  ⟨by decide, (degenerate_single_range ⟨0, 1, ""⟩ 12345 (by decide)).1,
    (degenerate_single_range ⟨0, 1, ""⟩ 12345 (by decide)).2.2⟩

/-! ## Key encoder: the ceiling-distance prefix -/

theorem hexDigitValue_digitChar :
    ∀ d : Fin 16, hexDigitValue (digitChar d.val) = some d.val := by
  decide

theorem isUpperHexDigit_digitChar :
    ∀ d : Fin 16, isUpperHexDigit (digitChar d.val) = true := by
  decide

/-- Reading fixed-width hexadecimal digits back gives the number they were written from. -/
theorem hexValueFrom_digitsFixed (k : Nat) :
    ∀ acc n : Nat,
      hexValueFrom acc (digitsFixed 16 k n) = some (acc * 16 ^ k + n % 16 ^ k) := by
  induction k with
  | zero => intro acc n; simp [digitsFixed, hexValueFrom, Nat.mod_one]
  | succ k ih =>
    intro acc n
    have hd : n / 16 ^ k % 16 < 16 := Nat.mod_lt _ (by decide)
    have hv := hexDigitValue_digitChar ⟨n / 16 ^ k % 16, hd⟩
    simp only at hv
    rw [digitsFixed, hexValueFrom, hv]
    simp only
    rw [ih, Nat.mod_pow_succ]
    congr 1
    ring

theorem digitsFixed_all_hex (k n : Nat) :
    ∀ c ∈ digitsFixed 16 k n, isUpperHexDigit c = true := by
  induction k with
  | zero => intro c hc; simp [digitsFixed] at hc
  | succ k ih =>
    intro c hc
    rw [digitsFixed, List.mem_cons] at hc
    rcases hc with rfl | hc
    · exact isUpperHexDigit_digitChar ⟨n / 16 ^ k % 16, Nat.mod_lt _ (by decide)⟩
    · exact ih c hc

/-- C15: for every `uint32` range start `s` the prefix emitted for `s` (the verb `%08X`
applied to `math.MaxUint32 - s`) has exactly 8 characters, each in `0-9` or `A-F`, its
base-16 value is `(2^32-1) - s`, and for every `uint32` `t > s` the prefix of `s` is
lexicographically strictly greater than the prefix of `t`. -/
theorem ceiling_prefix_fixed_width (s : Nat) (hs : s < two32) :
    (fmtHex08 (sub32 MaxUint32 s)).toList.length = 8
    ∧ (∀ c ∈ (fmtHex08 (sub32 MaxUint32 s)).toList, isUpperHexDigit c = true)
    ∧ hexValue (fmtHex08 (sub32 MaxUint32 s)) = some (MaxUint32 - s)
    ∧ ∀ t, s < t → t < two32 →
        fmtHex08 (sub32 MaxUint32 t) < fmtHex08 (sub32 MaxUint32 s) := by
  have hlt : MaxUint32 - s < two32 := by
    simp only [two32, MaxUint32] at *
    omega
  rw [fmtHex08_sub32 s hs]
  refine ⟨hex8_length _, digitsFixed_all_hex 8 _, ?_, ?_⟩
  · have h16 : (16 : Nat) ^ 8 = two32 := by decide
    have h := hexValueFrom_digitsFixed 8 0 (MaxUint32 - s)
    rw [h16, Nat.mod_eq_of_lt hlt, Nat.zero_mul, Nat.zero_add] at h
    exact h
  · intro t hst ht
    rw [fmtHex08_sub32 t ht]
    apply hex8_lt _ hlt
    simp only [two32, MaxUint32] at *
    omega

theorem ceiling_prefix_fixed_width_witness :
    4294967200 < two32
    ∧ (fmtHex08 (sub32 MaxUint32 4294967200)).toList.length = 8
    ∧ hexValue (fmtHex08 (sub32 MaxUint32 4294967200)) = some (MaxUint32 - 4294967200) :=
  ⟨by decide, (ceiling_prefix_fixed_width 4294967200 (by decide)).1,
    (ceiling_prefix_fixed_width 4294967200 (by decide)).2.2.1⟩

/-! ## Key encoder: the shape of the key -/

theorem append_shape_two (D A B C S : String) :
    D ++ (A ++ "--" ++ B ++ ("-" ++ C)) ++ S = D ++ (A ++ "--" ++ B ++ "-" ++ C) ++ S := by
  simp only [String.append_assoc]

theorem append_shape_one (D A B S : String) :
    D ++ (A ++ "--" ++ B ++ "") ++ S = D ++ (A ++ "--" ++ B) ++ S := by
  rw [String.append_empty]

/-- The layout is one of the four shapes; the file component has two boundaries exactly
when the two file boundaries differ. -/
theorem keyLayout_eq_keyShape (pb : Option (Nat × Nat)) (fs fe : Nat) (ext : String) :
    keyLayout pb fs fe ext
      = keyShape pb.isSome (decide (fs ≠ fe)) (pb.getD (0, 0)).1 (pb.getD (0, 0)).2
          fs fe ext := by
  unfold keyLayout keyShape dirComponent fileRange fileSingle
  cases pb with
  | none =>
    by_cases h : fs ≠ fe
    · rw [decide_eq_true h, if_pos h]
      exact append_shape_two _ _ _ _ _
    · rw [decide_eq_false h, if_neg h]
      exact append_shape_one _ _ _ _
  | some p =>
    by_cases h : fs ≠ fe
    · rw [decide_eq_true h, if_pos h]
      exact append_shape_two _ _ _ _ _
    · rw [decide_eq_false h, if_neg h]
      exact append_shape_one _ _ _ _

/-- The two file boundaries differ exactly when the file has several ledgers and does not
start at the ceiling. -/
theorem start_ne_end_iff (ec : DataStoreSchema) (seq : Nat) (hL : 1 ≤ ec.LedgersPerFile)
    (hLt : ec.LedgersPerFile < two32) :
    GetSequenceNumberStartBoundary ec seq ≠ GetSequenceNumberEndBoundary ec seq
      ↔ (ec.LedgersPerFile > 1 ∧ GetSequenceNumberStartBoundary ec seq ≠ MaxUint32) := by
  have hs := start_lt_two32 ec seq
  rw [end_eq ec seq hL hLt]
  simp only [two32, MaxUint32] at *
  omega

/-- C11 (as stated, refuted): with `LedgersPerFile = 3` the last file of the domain starts
at `2^32-1 = 3 * 1431655765` and its end is clamped to the same number, so the key of
`2^32-1` has the single form `00000000--4294967295.xdr.zst` although
`LedgersPerFile > 1`. -/
theorem key_shape_counterexample :
    (DataStoreSchema.mk 3 0 "").LedgersPerFile > 1 ∧ 4294967295 < two32
    ∧ GetSequenceNumberStartBoundary ⟨3, 0, ""⟩ 4294967295 = 4294967295
    ∧ GetSequenceNumberEndBoundary ⟨3, 0, ""⟩ 4294967295 = 4294967295
    ∧ GetObjectKeyFromSequenceNumber ⟨3, 0, ""⟩ "zst" 4294967295
        = some "00000000--4294967295.xdr.zst"
    ∧ GetObjectKeyFromSequenceNumber ⟨3, 0, ""⟩ "zst" 4294967295
        ≠ some (keyShape false true 0 0 (GetSequenceNumberStartBoundary ⟨3, 0, ""⟩ 4294967295)
            (GetSequenceNumberEndBoundary ⟨3, 0, ""⟩ 4294967295) "zst") := by
  refine ⟨by decide, by decide, by decide, by decide, by decide, by decide⟩

/-- C11 (amended): for `1 <= LedgersPerFile < 2^32`, every produced key has the one of the
four documented shapes selected by two flags: the directory component is present exactly
when `FilesPerPartition > 1`, and the file component has the two-boundary form `H--N1-N2`
exactly when `LedgersPerFile > 1` and the file does not start at `2^32-1`; with
`LedgersPerFile = 1`, and for the file that starts at `2^32-1`, it has the single form
`H--N`. -/
theorem key_shape_by_config (ec : DataStoreSchema) (d : String) (seq : Nat) (k : String)
    (hL : 1 ≤ ec.LedgersPerFile) (hLt : ec.LedgersPerFile < two32)
    (hk : GetObjectKeyFromSequenceNumber ec d seq = some k) :
    ∃ partitionStart partitionEnd,
      (ec.FilesPerPartition > 1 →
        partitionBounds ec seq = some (partitionStart, partitionEnd))
      ∧ k = keyShape (decide (ec.FilesPerPartition > 1))
          (decide (ec.LedgersPerFile > 1 ∧ GetSequenceNumberStartBoundary ec seq ≠ MaxUint32))
          partitionStart partitionEnd
          (GetSequenceNumberStartBoundary ec seq) (GetSequenceNumberEndBoundary ec seq)
          (if ec.FileExtension = "" then d else ec.FileExtension) := by
  have hflag : decide (GetSequenceNumberStartBoundary ec seq
        ≠ GetSequenceNumberEndBoundary ec seq)
      = decide (ec.LedgersPerFile > 1 ∧ GetSequenceNumberStartBoundary ec seq ≠ MaxUint32) :=
    decide_eq_decide.mpr (start_ne_end_iff ec seq hL hLt)
  rw [key_eq_layout ec d seq] at hk
  by_cases hF : ec.FilesPerPartition > 1
  · rw [if_pos hF] at hk
    cases hpb : partitionBounds ec seq with
    | none => rw [hpb] at hk; exact absurd hk (by simp)
    | some pb =>
      rw [hpb, Option.map_some', keyLayout_eq_keyShape, hflag] at hk
      refine ⟨pb.1, pb.2, fun _ => rfl, ?_⟩
      rw [decide_eq_true hF]
      exact (Option.some.inj hk).symm
  · rw [if_neg hF, keyLayout_eq_keyShape, hflag] at hk
    refine ⟨0, 0, fun h => absurd h hF, ?_⟩
    rw [decide_eq_false hF]
    exact (Option.some.inj hk).symm

theorem key_shape_by_config_witness :
    1 ≤ (DataStoreSchema.mk 50 2 "").LedgersPerFile
    ∧ (DataStoreSchema.mk 50 2 "").LedgersPerFile < two32
    ∧ GetObjectKeyFromSequenceNumber ⟨50, 2, ""⟩ "zst" 150
        = some "FFFFFF9B--100-199/FFFFFF69--150-199.xdr.zst"
    ∧ ∃ partitionStart partitionEnd,
      ((DataStoreSchema.mk 50 2 "").FilesPerPartition > 1 →
        partitionBounds ⟨50, 2, ""⟩ 150 = some (partitionStart, partitionEnd))
      ∧ "FFFFFF9B--100-199/FFFFFF69--150-199.xdr.zst"
        = keyShape (decide ((DataStoreSchema.mk 50 2 "").FilesPerPartition > 1))
          (decide ((DataStoreSchema.mk 50 2 "").LedgersPerFile > 1
            ∧ GetSequenceNumberStartBoundary ⟨50, 2, ""⟩ 150 ≠ MaxUint32))
          partitionStart partitionEnd
          (GetSequenceNumberStartBoundary ⟨50, 2, ""⟩ 150)
          (GetSequenceNumberEndBoundary ⟨50, 2, ""⟩ 150)
          (if (DataStoreSchema.mk 50 2 "").FileExtension = "" then "zst"
            else (DataStoreSchema.mk 50 2 "").FileExtension) :=
  ⟨by decide, by decide, by decide,
    key_shape_by_config ⟨50, 2, ""⟩ "zst" 150 "FFFFFF9B--100-199/FFFFFF69--150-199.xdr.zst"
      (by decide) (by decide) (by decide)⟩

end Datastore

namespace Actions

/-! ## The offers query -/

/-- C14 (the code at the failing inputs): `HasBuying` reads `SellingAssetType`.  A query
with only a selling asset type reports a buying asset, and a query with only a buying
asset type reports none; `HasBuying` always agrees with `HasSelling`. -/
theorem hasBuying_reads_selling_type :
    OffersQuery.HasBuying ⟨⟨"", "", 0⟩, "", "native", "", "", "", "", ""⟩ = true
    ∧ ¬ OffersQuery.hasBuyingParam ⟨⟨"", "", 0⟩, "", "native", "", "", "", "", ""⟩
    ∧ OffersQuery.HasBuying ⟨⟨"", "", 0⟩, "", "", "", "", "native", "", ""⟩ = false
    ∧ OffersQuery.hasBuyingParam ⟨⟨"", "", 0⟩, "", "", "", "", "native", "", ""⟩
    ∧ ∀ q : OffersQuery, q.HasBuying = q.HasSelling := by
  refine ⟨by decide, ?_, by decide, ?_, fun _ => rfl⟩
  · unfold OffersQuery.hasBuyingParam
    decide
  · unfold OffersQuery.hasBuyingParam
    decide

end Actions
